import Mathlib

/-!
Shallow embedding of `src/hermes2d/src/solver/picard_solver.cpp`
(`Hermes::Hermes2D::PicardSolver<Scalar>`, instantiated at the real case
`Scalar = double`, modelled with exact rational arithmetic).

The external collaborators (DiscreteProblem assembly plus the sparse linear
solver, lines 248-278 of the source) are modelled as a single parameter
`F : List ℚ → Option (List ℚ)` mapping the current iterate
(`last_iter_vector`) to the vector produced by the linear solve; `none`
means `matrix_solver->solve()` returned false (a `LinearMatrixSolverException`
is thrown).  The dense LU routines `ludcmp`/`lubksb` used by
`calculate_anderson_coeffs` live in hermes_common, outside the sources at
hand; they are modelled from the spec as Gaussian elimination with partial
pivoting (`luSolve` below).
-/

/-- Factorization schemes passed to the external matrix solver via
`set_factorization_scheme` (source lines 248-267):
`HERMES_FACTORIZE_FROM_SCRATCH`, `HERMES_REUSE_MATRIX_REORDERING_AND_SCALING`,
`HERMES_REUSE_FACTORIZATION_COMPLETELY`. -/
inductive FactorizationHint where
  | fromScratch
  | reuseOrderingAndScaling
  | reuseFull
deriving DecidableEq

/-- How one `solve` invocation ended.  The exceptions of the source are
modelled as exit reasons: `configurationError` for the
`Hermes::Exceptions::Exception` raised by `isOkay` (line 75) or by
`calculate_anderson_coeffs` (line 91), `linearSolveFailed` for the
`LinearMatrixSolverException` of line 276, `maxIterationsExceeded` for
the throw of line 378. -/
inductive ExitReason where
  | converged
  | maxIterationsExceeded
  | linearSolveFailed
  | configurationError
deriving DecidableEq

/-- Solver configuration read during `solve`.  Field names follow the
members of `PicardSolver` (`init_picard` defaults: `tol = 1e-4`,
`max_iter = 50`, `num_last_vectors_used = 3`, `anderson_beta = 1.0`,
`anderson_is_on = false`); `constant_jacobian` is the inherited flag read
at line 250. -/
structure PicardConfig where
  tol : ℚ
  max_iter : ℕ
  num_last_vectors_used : ℕ
  anderson_beta : ℚ
  anderson_is_on : Bool
  constant_jacobian : Bool
deriving DecidableEq

/-- Record of one loop iteration: the factorization scheme set on the
matrix solver, and whether the Jacobian matrix was reassembled
(`dp->assemble(last_iter_vector, jacobian, residual)`, lines 259/264) as
opposed to the residual-only reassembly of line 253. -/
structure IterationLog where
  hint : FactorizationHint
  assembledJacobian : Bool
deriving DecidableEq

/-- Outcome of one `solve` call.  `sln_vector` is the member left in the
solver object (retrievable by the caller after `solve` returns or throws).
The `freed*` fields count how many times each per-solve allocation of
lines 224-235 was released by a `delete []` on the taken exit path:
`freedLastIter` for `last_iter_vector`, `freedPrevVectors` for the
`previous_vectors` history buffers, `freedCoeffs` for `anderson_coeffs`.
`andersonAllocated` records whether the Anderson buffers were allocated at
solve start (lines 230-235). -/
structure SolveResult where
  exitReason : ExitReason
  sln_vector : List ℚ
  iterations : ℕ
  logs : List IterationLog
  andersonAllocated : Bool
  freedLastIter : ℕ
  freedPrevVectors : ℕ
  freedCoeffs : ℕ
deriving DecidableEq

/-- Value of the `rel_error` double of line 334 under IEEE-754 semantics,
with the finite arithmetic idealized as exact.  Both norms are square roots
of nonnegative rational sums; a finite quotient `sqrt a / sqrt b` is
represented as `fin (a / b)`, i.e. by its square, so that no square root
appears.  When the denominator norm is exactly zero the IEEE quotient is
`+Infinity` for a positive numerator and `NaN` for `0/0`. -/
inductive RelError where
  | nan
  | inf
  | fin (sq : ℚ)
deriving DecidableEq

/-- Comparison `rel_error < tol` of line 343.  `NaN < tol` and
`Infinity < tol` are false; for the finite value `sqrt q` (with `q ≥ 0`),
`sqrt q < tol` holds iff `0 < tol` and `q < tol * tol`. -/
def relLtTol : RelError → ℚ → Bool
  | RelError.nan, _ => false
  | RelError.inf, _ => false
  | RelError.fin q, tol => decide (0 < tol ∧ q < tol * tol)

/-- Lines 324-334: `last_iter_vec_norm` and `abs_error` are accumulated as
sums of `std::abs` of squares over the `ndof` entries, and
`rel_error = abs_error / last_iter_vec_norm` is formed unconditionally
(the square roots commute with the quotient, see `RelError`). -/
def relativeErrorCode (last_iter_vector sln_vector : List ℚ) (ndof : ℕ) : RelError :=
  let normSq := List.foldl
    (fun acc i => acc + |last_iter_vector.getD i 0 * last_iter_vector.getD i 0|) 0
    (List.range ndof)
  let absSq := List.foldl
    (fun acc i => acc + |(sln_vector.getD i 0 - last_iter_vector.getD i 0) *
      (sln_vector.getD i 0 - last_iter_vector.getD i 0)|) 0
    (List.range ndof)
  if normSq = 0 then (if absSq = 0 then RelError.nan else RelError.inf)
  else RelError.fin (absSq / normSq)

/-- Lines 67-80 (`PicardSolver::isOkay`): the base-class check is outside
these sources and assumed to pass; the throw for a bad history depth
(`num_last_vectors_used < 1`, line 73) is modelled as returning `false`. -/
def isOkay (cfg : PicardConfig) : Bool :=
  decide (1 ≤ cfg.num_last_vectors_used)

/-- Lines 280-302: store the new candidate among the previous vectors.  The
array of `num_last_vectors_used` preallocated buffers is modelled by the
list of its `vec_in_memory` meaningful entries, oldest first.  If the
memory is not full the vector is appended and the counter grows; otherwise
the pointer rotation of lines 293-300 drops the oldest entry, shifts the
rest, and writes the new vector into the recycled last slot. -/
def anderson_store (previous_vectors : List (List ℚ)) (vec_in_memory M : ℕ)
    (v : List ℚ) : List (List ℚ) × ℕ :=
  if vec_in_memory < M then (previous_vectors ++ [v], vec_in_memory + 1)
  else (previous_vectors.tail ++ [v], vec_in_memory)

/-- History contents after a sequence of stores, starting from the empty
memory; the first processed vector plays the role of the initial
`memcpy(previous_vectors[0], sln_vector, ...)` of line 239. -/
def historyAfter (M : ℕ) (ps : List (List ℚ)) : List (List ℚ) × ℕ :=
  ps.foldl (fun st v => anderson_store st.1 st.2 M v) ([], 0)

/-- Scalar residual difference used throughout lines 113-127:
`previous_vectors[i + 1][k] - previous_vectors[i][k]`. -/
def residual_k (pv : List (List ℚ)) (i k : ℕ) : ℚ :=
  (pv.getD (i + 1) []).getD k 0 - (pv.getD i []).getD k 0

/-- Lines 111-118: the `i`-th entry of the right-hand side, accumulated
over `k < ndof` as `rhs[i] += residual_n_k * (residual_n_k - residual_i_k)`. -/
def anderson_rhs_entry (pv : List (List ℚ)) (n ndof i : ℕ) : ℚ :=
  List.foldl
    (fun acc k => acc + residual_k pv n k * (residual_k pv n k - residual_k pv i k)) 0
    (List.range ndof)

/-- Lines 119-134: the `(i, j)` matrix entry, accumulated over `k < ndof`
as `val += (residual_n_k - residual_i_k) * (residual_n_k - residual_j_k)`.
The cast of `val` to `double` (lines 130-133) is the identity for the real
scalar case modelled here. -/
def anderson_mat_entry (pv : List (List ℚ)) (n ndof i j : ℕ) : ℚ :=
  List.foldl
    (fun acc k => acc + (residual_k pv n k - residual_k pv i k) *
      (residual_k pv n k - residual_k pv j k)) 0
    (List.range ndof)

/-- Modelled from the spec: `ludcmp`/`lubksb` (the dense LU solve of lines
138-141) live in hermes_common, outside the sources at hand.  `pickPivot`
selects a row with maximal leading coefficient in absolute value (partial
pivoting) and returns it together with the remaining rows. -/
def pickPivot : List (List ℚ) → (List ℚ × List (List ℚ))
  | [] => ([], [])
  | [r] => (r, [])
  | r :: s :: rest =>
    let q := pickPivot (s :: rest)
    if |q.1.headD 0| > |r.headD 0| then (q.1, r :: q.2) else (r, s :: rest)

/-- Modelled from the spec: forward elimination on augmented rows
(coefficients followed by the right-hand side entry); `fuel` is the system
dimension.  Each step eliminates the leading column of the non-pivot rows. -/
def gaussElim : ℕ → List (List ℚ) → List (List ℚ)
  | 0, _ => []
  | Nat.succ f, rows =>
    let pr := pickPivot rows
    let piv := pr.1.headD 0
    let reduced := pr.2.map
      (fun r => List.zipWith (fun a b => a - (r.headD 0 / piv) * b) r.tail pr.1.tail)
    pr.1 :: gaussElim f reduced

/-- Modelled from the spec: back substitution over the triangularized rows
produced by `gaussElim`, solving for the variables from the last one up. -/
def backSubst : List (List ℚ) → List ℚ
  | [] => []
  | p :: rest =>
    let xs := backSubst rest
    let b := p.tail.getLastD 0
    ((b - (List.zipWith (fun c x => c * x) p.tail.dropLast xs).sum) / p.headD 0) :: xs

/-- Modelled from the spec: solve `mat · x = rhs` via LU decomposition with
partial pivoting followed by back substitution. -/
def luSolve (mat : List (List ℚ)) (rhs : List ℚ) : List ℚ :=
  backSubst (gaussElim mat.length (List.zipWith (fun row b => row ++ [b]) mat rhs))

/-- Lines 89-158 (`PicardSolver::calculate_anderson_coeffs`).  The throw of
line 91 becomes an error value; for `num_last_vectors_used = 2` the single
coefficient is `1.0` (lines 94-98); otherwise the normal-equation system of
dimension `n = num_last_vectors_used - 2` is built and solved, the first
`n` coefficients are the solution entries and the last one is one minus
their sum (lines 145-151). -/
def calculate_anderson_coeffs (previous_vectors : List (List ℚ))
    (num_last_vectors_used ndof : ℕ) : Except String (List ℚ) :=
  if num_last_vectors_used ≤ 1 then
    Except.error "Picard: Anderson acceleration makes sense only if at least two last iterations are used."
  else if num_last_vectors_used = 2 then
    Except.ok [1]
  else
    let n := num_last_vectors_used - 2
    let mat := (List.range n).map
      (fun i => (List.range n).map (fun j => anderson_mat_entry previous_vectors n ndof i j))
    let rhs := (List.range n).map (fun i => anderson_rhs_entry previous_vectors n ndof i)
    let x := luSolve mat rhs
    Except.ok (x ++ [1 - x.sum])

/-- Lines 310-318: the mixed vector written back into `sln_vector`.  For
each component `i < ndof`, the inner loop over `j = 1 … M-1` accumulates
`anderson_coeffs[j-1] * previous_vectors[j][i]
 - (1 - anderson_beta) * anderson_coeffs[j-1]
   * (previous_vectors[j][i] - previous_vectors[j-1][i])` starting from 0. -/
def anderson_mix (previous_vectors : List (List ℚ)) (anderson_coeffs : List ℚ)
    (num_last_vectors_used ndof : ℕ) (anderson_beta : ℚ) : List ℚ :=
  (List.range ndof).map (fun i =>
    List.foldl (fun acc j =>
      acc + (anderson_coeffs.getD (j - 1) 0 *
          (previous_vectors.getD j []).getD i 0
        - (1 - anderson_beta) * anderson_coeffs.getD (j - 1) 0 *
          ((previous_vectors.getD j []).getD i 0 -
           (previous_vectors.getD (j - 1) []).getD i 0))) 0
      (List.range' 1 (num_last_vectors_used - 1)))

/-- Lines 304-319 condensed: if Anderson acceleration is on and the memory
holds at least `num_last_vectors_used` vectors, compute the coefficients
(possibly throwing, line 91) and replace the candidate by the mixed vector;
otherwise keep the candidate produced by the linear solve. -/
def mixStep (cfg : PicardConfig) (previous_vectors : List (List ℚ))
    (vec_in_memory ndof : ℕ) (y : List ℚ) : Except String (List ℚ) :=
  if cfg.anderson_is_on = true ∧ cfg.num_last_vectors_used ≤ vec_in_memory then
    match calculate_anderson_coeffs previous_vectors cfg.num_last_vectors_used ndof with
    | Except.error e => Except.error e
    | Except.ok cs =>
      Except.ok (anderson_mix previous_vectors cs cfg.num_last_vectors_used ndof
        cfg.anderson_beta)
  else Except.ok y

/-- Lines 248-267 as data: the factorization scheme set for this iteration
and whether the Jacobian was reassembled.  On the first iteration
(`jacobian_reusable` false) the scheme is `HERMES_FACTORIZE_FROM_SCRATCH`
and both matrix and residual are assembled; afterwards a constant Jacobian
reuses the factorization completely and reassembles only the residual,
otherwise both are reassembled under
`HERMES_REUSE_MATRIX_REORDERING_AND_SCALING`. -/
def iterLog (cfg : PicardConfig) (jacobian_reusable : Bool) : IterationLog :=
  ⟨if jacobian_reusable then
      (if cfg.constant_jacobian then FactorizationHint.reuseFull
       else FactorizationHint.reuseOrderingAndScaling)
    else FactorizationHint.fromScratch,
   !(jacobian_reusable && cfg.constant_jacobian)⟩

/-- Lines 280-302 guarded by `anderson_is_on`: the candidate is stored in
the Anderson memory only when acceleration is on. -/
def afterStore (cfg : PicardConfig) (previous_vectors : List (List ℚ))
    (vec_in_memory : ℕ) (y : List ℚ) : List (List ℚ) × ℕ :=
  if cfg.anderson_is_on then
    anderson_store previous_vectors vec_in_memory cfg.num_last_vectors_used y
  else (previous_vectors, vec_in_memory)

/-- Common shape of the four ways one iteration can end the loop.
`cleanup = true` corresponds to the `delete []` blocks of lines 345-353 and
364-372 (run on the converged and max-iterations exits: `last_iter_vector`
freed once, and the Anderson buffers freed once when they were allocated);
`cleanup = false` corresponds to the throws of lines 276 and 91, which
escape `solve` without releasing anything. -/
def exitRecord (e : ExitReason) (sln : List ℚ) (it : ℕ) (logs : List IterationLog)
    (andersonOn : Bool) (cleanup : Bool) : SolveResult :=
  { exitReason := e
    sln_vector := sln
    iterations := it
    logs := logs
    andersonAllocated := andersonOn
    freedLastIter := if cleanup then 1 else 0
    freedPrevVectors := if cleanup && andersonOn then 1 else 0
    freedCoeffs := if cleanup && andersonOn then 1 else 0 }

/-- The `while (true)` loop of lines 244-388, one call per iteration.
`fuel` is the number of further iterations the `it >= max_iter` test of
line 362 still allows: `picardSolve` passes `max_iter - 1` for the initial
`it = 1`, so `fuel = 0` exactly when `it >= max_iter`, and the invariant
`fuel = max_iter - it` is maintained by the recursive call.  Per iteration:
choose the factorization scheme and assembly (lines 248-267, recorded in
the log), run the external linear solve, store the candidate in the
Anderson memory, optionally mix, evaluate the relative error, then exit or
continue with `it + 1` after `last_iter_vector` is renewed (line 387). -/
def picardLoop (F : List ℚ → Option (List ℚ)) (cfg : PicardConfig) (ndof : ℕ) :
    ℕ → ℕ → ℕ → Bool → List ℚ → List ℚ → List (List ℚ) → List IterationLog →
    SolveResult
  | fuel, it, vec_in_memory, jacobian_reusable, last_iter_vector, sln_vector,
    previous_vectors, logs =>
    match F last_iter_vector with
    | none =>
      exitRecord ExitReason.linearSolveFailed sln_vector it
        (logs ++ [iterLog cfg jacobian_reusable]) cfg.anderson_is_on false
    | some y =>
      match mixStep cfg (afterStore cfg previous_vectors vec_in_memory y).1
          (afterStore cfg previous_vectors vec_in_memory y).2 ndof y with
      | Except.error _ =>
        exitRecord ExitReason.configurationError y it
          (logs ++ [iterLog cfg jacobian_reusable]) cfg.anderson_is_on false
      | Except.ok sln2 =>
        if relLtTol (relativeErrorCode last_iter_vector sln2 ndof) cfg.tol then
          exitRecord ExitReason.converged sln2 it
            (logs ++ [iterLog cfg jacobian_reusable]) cfg.anderson_is_on true
        else
          match fuel with
          | 0 =>
            exitRecord ExitReason.maxIterationsExceeded sln2 it
              (logs ++ [iterLog cfg jacobian_reusable]) cfg.anderson_is_on true
          | Nat.succ f =>
            picardLoop F cfg ndof f (it + 1)
              (afterStore cfg previous_vectors vec_in_memory y).2 true sln2 sln2
              (afterStore cfg previous_vectors vec_in_memory y).1
              (logs ++ [iterLog cfg jacobian_reusable])

/-- Lines 204-207 inside `init_solving`: a null coefficient vector means
the zero vector of length `ndof`. -/
def initialVec (ndof : ℕ) (coeff_vec : Option (List ℚ)) : List ℚ :=
  match coeff_vec with
  | none => List.replicate ndof 0
  | some v => v

/-- Lines 212-389 (`PicardSolver::solve`).  `init_solving` first runs the
configuration check (`this->check()` calls `isOkay`; a failure escapes
before any per-solve allocation), then `sln_vector` and `last_iter_vector`
are initialized from the guess, the Anderson memory is allocated and seeded
with the initial vector when acceleration is on (`vec_in_memory = 1`,
line 242), and the loop starts at `it = 1`.  `jacobian_reusable` starts
false for a fresh solver (its initialization lives in the base class,
outside these sources; the spec fixes the first iteration to factorize
from scratch). -/
def picardSolve (F : List ℚ → Option (List ℚ)) (cfg : PicardConfig) (ndof : ℕ)
    (coeff_vec : Option (List ℚ)) : SolveResult :=
  if isOkay cfg then
    let sln := initialVec ndof coeff_vec
    picardLoop F cfg ndof (cfg.max_iter - 1) 1 1 false sln sln
      (if cfg.anderson_is_on then [sln] else []) []
  else
    { exitReason := ExitReason.configurationError
      sln_vector := []
      iterations := 0
      logs := []
      andersonAllocated := false
      freedLastIter := 0
      freedPrevVectors := 0
      freedCoeffs := 0 }

/-- Written from the spec's words (section 4.2): residual differences
`r_i = v_{i+1} − v_i`, componentwise. -/
def residualSpec (v : List (List ℚ)) (i k : ℕ) : ℚ :=
  (v.getD (i + 1) []).getD k 0 - (v.getD i []).getD k 0

/-- Written from the spec's words: `rhs[i] = Σ_k r_n[k] · (r_n[k] − r_i[k])`. -/
def rhsSpec (v : List (List ℚ)) (n ndof i : ℕ) : ℚ :=
  ∑ k ∈ Finset.range ndof,
    residualSpec v n k * (residualSpec v n k - residualSpec v i k)

/-- Written from the spec's words:
`mat[i][j] = Σ_k (r_n[k] − r_i[k]) · (r_n[k] − r_j[k])`. -/
def matSpec (v : List (List ℚ)) (n ndof i j : ℕ) : ℚ :=
  ∑ k ∈ Finset.range ndof,
    (residualSpec v n k - residualSpec v i k) * (residualSpec v n k - residualSpec v j k)

/-- Accumulating a function over `List.range n` starting from `a` is `a`
plus the corresponding finite sum. -/
lemma foldl_add_range (f : ℕ → ℚ) : ∀ (n : ℕ) (a : ℚ),
    List.foldl (fun acc k => acc + f k) a (List.range n) =
      a + ∑ k ∈ Finset.range n, f k := by
  intro n
  induction n with
  | zero => intro a; simp
  | succ m ih =>
    intro a
    rw [List.range_succ, List.foldl_append, ih, Finset.sum_range_succ]
    simp [add_assoc]

/-- Accumulating a function over `List.range' s n` starting from `a` is `a`
plus the sum over the interval `[s, s + n)`. -/
lemma foldl_add_range' (f : ℕ → ℚ) (s n : ℕ) (a : ℚ) :
    List.foldl (fun acc k => acc + f k) a (List.range' s n) =
      a + ∑ k ∈ Finset.Ico s (s + n), f k := by
  rw [List.range'_eq_map_range, List.foldl_map,
    foldl_add_range (fun k => f (s + k)), Finset.sum_Ico_eq_sum_range]
  simp

/-- The accumulated right-hand side entry of lines 111-118 equals the
closed-form sum the spec writes for it. -/
lemma anderson_rhs_entry_eq (pv : List (List ℚ)) (n ndof i : ℕ) :
    anderson_rhs_entry pv n ndof i = rhsSpec pv n ndof i := by
  unfold anderson_rhs_entry rhsSpec residual_k residualSpec
  rw [foldl_add_range]
  simp

/-- The accumulated matrix entry of lines 119-134 equals the closed-form
sum the spec writes for it. -/
lemma anderson_mat_entry_eq (pv : List (List ℚ)) (n ndof i j : ℕ) :
    anderson_mat_entry pv n ndof i j = matSpec pv n ndof i j := by
  unfold anderson_mat_entry matSpec residual_k residualSpec
  rw [foldl_add_range]
  simp

/-- Reading a list back entrywise over `List.range` of its length
reproduces the list. -/
lemma map_getD_range (l : List ℚ) (n : ℕ) (h : l.length = n) :
    (List.range n).map (fun i => l.getD i 0) = l := by
  apply List.ext_getElem
  · simp [h]
  · intro i h1 h2
    simp only [List.getElem_map, List.getElem_range]
    rw [List.getD_eq_getElem l 0 h2]

/-- Componentwise value of the mixed vector: the accumulation of
lines 311-318 equals the sum over `j = 1 … M-1` the spec writes. -/
lemma anderson_mix_getD (pv : List (List ℚ)) (cs : List ℚ) (M ndof : ℕ)
    (beta : ℚ) (i : ℕ) (hi : i < ndof) :
    (anderson_mix pv cs M ndof beta).getD i 0 =
      ∑ j ∈ Finset.Ico 1 M,
        (cs.getD (j - 1) 0 * (pv.getD j []).getD i 0
          - (1 - beta) * cs.getD (j - 1) 0 *
            ((pv.getD j []).getD i 0 - (pv.getD (j - 1) []).getD i 0)) := by
  unfold anderson_mix
  rw [List.getD_eq_getElem _ 0 (by simpa using hi)]
  simp only [List.getElem_map, List.getElem_range]
  rw [foldl_add_range']
  cases M with
  | zero => simp
  | succ m =>
    rw [show 1 + (Nat.succ m - 1) = Nat.succ m by omega]
    simp

/-- With two history vectors, coefficient `1.0` and `beta = 1`, the mixing
step reproduces the newest stored vector. -/
lemma anderson_mix_two (pv : List (List ℚ)) (ndof : ℕ)
    (h : (pv.getD 1 []).length = ndof) :
    anderson_mix pv [1] 2 ndof 1 = pv.getD 1 [] := by
  unfold anderson_mix
  rw [show (2 : ℕ) - 1 = 1 from rfl, show List.range' 1 1 = [1] from rfl]
  simp only [List.foldl_cons, List.foldl_nil, Nat.sub_self, List.getD_cons_zero,
    sub_self, zero_mul, mul_zero, zero_add, one_mul, sub_zero]
  exact map_getD_range _ _ h

/-- Forward elimination returns as many rows as its fuel (the system
dimension). -/
lemma gaussElim_length : ∀ (fuel : ℕ) (rows : List (List ℚ)),
    (gaussElim fuel rows).length = fuel := by
  intro fuel
  induction fuel with
  | zero => intro rows; rfl
  | succ f ih => intro rows; simp [gaussElim, ih]

/-- Back substitution produces one value per row. -/
lemma backSubst_length : ∀ rows : List (List ℚ),
    (backSubst rows).length = rows.length := by
  intro rows
  induction rows with
  | nil => rfl
  | cons p rest ih => simp [backSubst, ih]

/-- The dense solve returns one entry per matrix row. -/
lemma luSolve_length (mat : List (List ℚ)) (rhs : List ℚ) :
    (luSolve mat rhs).length = mat.length := by
  unfold luSolve
  rw [backSubst_length, gaussElim_length]

/-- Closed form of the history state after any sequence of stores: the
memory holds exactly the last `min (length) M` vectors, oldest first, and
the counter equals the number of held vectors. -/
lemma historyAfter_eq (M : ℕ) (hM : 1 ≤ M) : ∀ ps : List (List ℚ),
    historyAfter M ps = (ps.drop (ps.length - M), min ps.length M) := by
  intro ps
  induction ps using List.reverseRecOn with
  | nil => simp [historyAfter]
  | append_singleton ps v ih =>
    unfold historyAfter at ih ⊢
    rw [List.foldl_append, ih]
    simp only [List.foldl_cons, List.foldl_nil, List.length_append,
      List.length_singleton]
    by_cases hlen : ps.length < M
    · have h1 : min ps.length M = ps.length := by omega
      have h2 : ps.length - M = 0 := by omega
      have h3 : ps.length + 1 - M = 0 := by omega
      have h4 : min (ps.length + 1) M = ps.length + 1 := by omega
      rw [h1, h2, h3, h4]
      simp [anderson_store, hlen]
    · have h1 : min ps.length M = M := by omega
      have h4 : min (ps.length + 1) M = M := by omega
      rw [h1, h4]
      unfold anderson_store
      rw [if_neg (by omega)]
      rw [List.tail_drop]
      rw [List.drop_append_of_le_length (by omega)]
      rw [show ps.length + 1 - M = ps.length - M + 1 by omega]

/-- Release accounting an exit result must satisfy: the converged and
max-iterations exits run the `delete []` blocks exactly once for every
allocation made for this solve, while the two thrown exits release
nothing. -/
def FreesSpec (cfg : PicardConfig) (r : SolveResult) : Prop :=
  (r.exitReason = ExitReason.converged ∨
      r.exitReason = ExitReason.maxIterationsExceeded →
    r.freedLastIter = 1 ∧
    r.freedPrevVectors = (if cfg.anderson_is_on then 1 else 0) ∧
    r.freedCoeffs = (if cfg.anderson_is_on then 1 else 0)) ∧
  (r.exitReason = ExitReason.linearSolveFailed ∨
      r.exitReason = ExitReason.configurationError →
    r.freedLastIter = 0 ∧ r.freedPrevVectors = 0 ∧ r.freedCoeffs = 0) ∧
  r.andersonAllocated = cfg.anderson_is_on

/-- Every result of the iteration loop satisfies the release accounting. -/
lemma picardLoop_frees (F : List ℚ → Option (List ℚ)) (cfg : PicardConfig)
    (ndof : ℕ) : ∀ (fuel it vim : ℕ) (jr : Bool) (last sln : List ℚ)
      (pv : List (List ℚ)) (logs : List IterationLog),
    FreesSpec cfg (picardLoop F cfg ndof fuel it vim jr last sln pv logs) := by
  intro fuel
  induction fuel with
  | zero =>
    intro it vim jr last sln pv logs
    rw [picardLoop]
    split
    · constructor
      · rintro (h | h) <;> simp [exitRecord] at h
      · refine ⟨fun _ => ?_, ?_⟩ <;> simp [exitRecord]
    · split
      · constructor
        · rintro (h | h) <;> simp [exitRecord] at h
        · refine ⟨fun _ => ?_, ?_⟩ <;> simp [exitRecord]
      · split
        · refine ⟨fun _ => ?_, fun h => ?_, ?_⟩
          · simp [exitRecord]
          · rcases h with h | h <;> simp [exitRecord] at h
          · simp [exitRecord]
        · refine ⟨fun _ => ?_, fun h => ?_, ?_⟩
          · simp [exitRecord]
          · rcases h with h | h <;> simp [exitRecord] at h
          · simp [exitRecord]
  | succ f ih =>
    intro it vim jr last sln pv logs
    rw [picardLoop]
    split
    · constructor
      · rintro (h | h) <;> simp [exitRecord] at h
      · refine ⟨fun _ => ?_, ?_⟩ <;> simp [exitRecord]
    · split
      · constructor
        · rintro (h | h) <;> simp [exitRecord] at h
        · refine ⟨fun _ => ?_, ?_⟩ <;> simp [exitRecord]
      · split
        · refine ⟨fun _ => ?_, fun h => ?_, ?_⟩
          · simp [exitRecord]
          · rcases h with h | h <;> simp [exitRecord] at h
          · simp [exitRecord]
        · exact ih _ _ _ _ _ _ _

/-- With a reusable Jacobian every remaining iteration logs the same reuse
entry: the loop only ever appends copies of `iterLog cfg true`, at least
one of them. -/
lemma picardLoop_logs_reusable (F : List ℚ → Option (List ℚ))
    (cfg : PicardConfig) (ndof : ℕ) : ∀ (fuel it vim : ℕ) (last sln : List ℚ)
      (pv : List (List ℚ)) (logs : List IterationLog),
    ∃ k : ℕ, 1 ≤ k ∧
      (picardLoop F cfg ndof fuel it vim true last sln pv logs).logs =
        logs ++ List.replicate k (iterLog cfg true) := by
  intro fuel
  induction fuel with
  | zero =>
    intro it vim last sln pv logs
    rw [picardLoop]
    split
    · exact ⟨1, le_refl 1, by simp [exitRecord]⟩
    · split
      · exact ⟨1, le_refl 1, by simp [exitRecord]⟩
      · split
        · exact ⟨1, le_refl 1, by simp [exitRecord]⟩
        · exact ⟨1, le_refl 1, by simp [exitRecord]⟩
  | succ f ih =>
    intro it vim last sln pv logs
    rw [picardLoop]
    split
    · exact ⟨1, le_refl 1, by simp [exitRecord]⟩
    · split
      · exact ⟨1, le_refl 1, by simp [exitRecord]⟩
      · split
        · exact ⟨1, le_refl 1, by simp [exitRecord]⟩
        · obtain ⟨k, hk, h⟩ := ih (it + 1) _ _ _ _ (logs ++ [iterLog cfg true])
          refine ⟨k + 1, by omega, ?_⟩
          rw [h, List.append_assoc, List.singleton_append, ← List.replicate_succ]

/-- Starting with a non-reusable Jacobian, the iteration log is one
from-scratch entry followed by reuse entries only. -/
lemma picardLoop_logs_first (F : List ℚ → Option (List ℚ))
    (cfg : PicardConfig) (ndof : ℕ) (fuel it vim : ℕ) (last sln : List ℚ)
    (pv : List (List ℚ)) (logs : List IterationLog) :
    ∃ k : ℕ,
      (picardLoop F cfg ndof fuel it vim false last sln pv logs).logs =
        logs ++ iterLog cfg false :: List.replicate k (iterLog cfg true) := by
  cases fuel with
  | zero =>
    rw [picardLoop]
    split
    · exact ⟨0, by simp [exitRecord]⟩
    · split
      · exact ⟨0, by simp [exitRecord]⟩
      · split
        · exact ⟨0, by simp [exitRecord]⟩
        · exact ⟨0, by simp [exitRecord]⟩
  | succ f =>
    rw [picardLoop]
    split
    · exact ⟨0, by simp [exitRecord]⟩
    · split
      · exact ⟨0, by simp [exitRecord]⟩
      · split
        · exact ⟨0, by simp [exitRecord]⟩
        · obtain ⟨k, _, h⟩ := picardLoop_logs_reusable F cfg ndof f (it + 1) _ _ _ _
            (logs ++ [iterLog cfg false])
          refine ⟨k, ?_⟩
          rw [h, List.append_assoc, List.singleton_append]

/-- Agreement of two solve outcomes on everything the caller observes about
the computed iterates: exit reason, final solution vector, iteration count
and the factorization log (the release bookkeeping may differ). -/
def resultsAgree (r s : SolveResult) : Prop :=
  r.exitReason = s.exitReason ∧ r.sln_vector = s.sln_vector ∧
  r.iterations = s.iterations ∧ r.logs = s.logs

/-- Reading the slot one past the end of `l` after appending `[y]` gives `y`. -/
lemma getD_append_last : ∀ (l : List (List ℚ)) (y : List ℚ),
    (l ++ [y]).getD l.length [] = y := by
  intro l
  induction l with
  | nil => intro y; rfl
  | cons a t ih => intro y; simp only [List.cons_append, List.length_cons, List.getD_cons_succ]; exact ih y

/-- Storing into a depth-2 memory that already holds one or two vectors
fills it to exactly two vectors whose newest entry is the stored one. -/
lemma anderson_store_two (pv : List (List ℚ)) (vim : ℕ) (y : List ℚ)
    (hlen : pv.length = vim) (hv : vim = 1 ∨ vim = 2) :
    (anderson_store pv vim 2 y).2 = 2 ∧
    (anderson_store pv vim 2 y).1.length = 2 ∧
    (anderson_store pv vim 2 y).1.getD 1 [] = y := by
  rcases hv with h | h <;> subst h
  · unfold anderson_store
    rw [if_pos (by omega)]
    refine ⟨rfl, by simp [hlen], ?_⟩
    have h2 := getD_append_last pv y
    rwa [hlen] at h2
  · unfold anderson_store
    rw [if_neg (by omega)]
    have ht : pv.tail.length = 1 := by simp [hlen]
    refine ⟨rfl, by simp [ht], ?_⟩
    have h2 := getD_append_last pv.tail y
    rwa [ht] at h2

/-- With a history depth of two the coefficient computation returns the
single coefficient `1.0` without building any linear system. -/
lemma calculate_anderson_coeffs_two (pv : List (List ℚ)) (ndof : ℕ) :
    calculate_anderson_coeffs pv 2 ndof = Except.ok [1] := rfl

/-- With Anderson acceleration off the mixing step keeps the candidate. -/
lemma mixStep_off (cfg : PicardConfig) (h : cfg.anderson_is_on = false)
    (pv : List (List ℚ)) (vim ndof : ℕ) (y : List ℚ) :
    mixStep cfg pv vim ndof y = Except.ok y := by
  unfold mixStep
  rw [if_neg (by simp [h])]

/-- With Anderson acceleration on, depth two, `beta = 1` and a full memory,
the mixing step returns the newest stored vector. -/
lemma mixStep_two_on (cfg : PicardConfig) (h : cfg.anderson_is_on = true)
    (hM : cfg.num_last_vectors_used = 2) (hb : cfg.anderson_beta = 1)
    (pv : List (List ℚ)) (ndof : ℕ) (y : List ℚ)
    (hvlen : (pv.getD 1 []).length = ndof) :
    mixStep cfg pv 2 ndof y = Except.ok (pv.getD 1 []) := by
  unfold mixStep
  rw [hM, hb]
  rw [if_pos ⟨h, le_refl 2⟩]
  rw [calculate_anderson_coeffs_two]
  simp [anderson_mix_two pv ndof hvlen]

/-- Loop-level equivalence behind the depth-2 identity: with Anderson on,
depth 2 and `beta = 1`, every iteration's mixed vector is the candidate the
linear solve just produced, so the loop computes exactly the iterates of
the plain Picard loop (Anderson off), as long as the external solver
returns vectors of length `ndof`. -/
lemma picardLoop_M2 (F : List ℚ → Option (List ℚ)) (t : ℚ) (mi : ℕ)
    (cj : Bool) (ndof : ℕ) (hF : ∀ x y, F x = some y → y.length = ndof) :
    ∀ (fuel it vim vim2 : ℕ) (jr : Bool) (last sln : List ℚ)
      (pv pv2 : List (List ℚ)) (logs : List IterationLog),
      pv.length = vim → (vim = 1 ∨ vim = 2) →
      resultsAgree
        (picardLoop F ⟨t, mi, 2, 1, true, cj⟩ ndof fuel it vim jr last sln pv logs)
        (picardLoop F ⟨t, mi, 2, 1, false, cj⟩ ndof fuel it vim2 jr last sln pv2 logs) := by
  intro fuel
  induction fuel with
  | zero =>
    intro it vim vim2 jr last sln pv pv2 logs hlen hv
    rw [picardLoop, picardLoop]
    cases hFl : F last with
    | none => exact ⟨rfl, rfl, rfl, rfl⟩
    | some y =>
      simp only []
      have hst := anderson_store_two pv vim y hlen hv
      have haf1 : afterStore ⟨t, mi, 2, 1, true, cj⟩ pv vim y =
          anderson_store pv vim 2 y := rfl
      have haf2 : afterStore ⟨t, mi, 2, 1, false, cj⟩ pv2 vim2 y = (pv2, vim2) := rfl
      rw [haf1, haf2, hst.1]
      have hy : y.length = ndof := hF last y hFl
      have hmx1 : mixStep ⟨t, mi, 2, 1, true, cj⟩ (anderson_store pv vim 2 y).1
          2 ndof y = Except.ok y := by
        rw [mixStep_two_on _ rfl rfl rfl _ ndof y (by rw [hst.2.2]; exact hy), hst.2.2]
      have hmx2 : mixStep ⟨t, mi, 2, 1, false, cj⟩ pv2 vim2 ndof y =
          Except.ok y := mixStep_off _ rfl _ _ _ _
      rw [hmx1, hmx2]
      simp only []
      by_cases hrel : relLtTol (relativeErrorCode last y ndof) t = true
      · simp only [hrel, if_true]
        exact ⟨rfl, rfl, rfl, rfl⟩
      · simp only [Bool.not_eq_true] at hrel
        simp only [hrel, Bool.false_eq_true, if_false]
        exact ⟨rfl, rfl, rfl, rfl⟩
  | succ f ih =>
    intro it vim vim2 jr last sln pv pv2 logs hlen hv
    rw [picardLoop, picardLoop]
    cases hFl : F last with
    | none => exact ⟨rfl, rfl, rfl, rfl⟩
    | some y =>
      simp only []
      have hst := anderson_store_two pv vim y hlen hv
      have haf1 : afterStore ⟨t, mi, 2, 1, true, cj⟩ pv vim y =
          anderson_store pv vim 2 y := rfl
      have haf2 : afterStore ⟨t, mi, 2, 1, false, cj⟩ pv2 vim2 y = (pv2, vim2) := rfl
      rw [haf1, haf2, hst.1]
      have hy : y.length = ndof := hF last y hFl
      have hmx1 : mixStep ⟨t, mi, 2, 1, true, cj⟩ (anderson_store pv vim 2 y).1
          2 ndof y = Except.ok y := by
        rw [mixStep_two_on _ rfl rfl rfl _ ndof y (by rw [hst.2.2]; exact hy), hst.2.2]
      have hmx2 : mixStep ⟨t, mi, 2, 1, false, cj⟩ pv2 vim2 ndof y =
          Except.ok y := mixStep_off _ rfl _ _ _ _
      rw [hmx1, hmx2]
      simp only []
      by_cases hrel : relLtTol (relativeErrorCode last y ndof) t = true
      · simp only [hrel, if_true]
        exact ⟨rfl, rfl, rfl, rfl⟩
      · simp only [Bool.not_eq_true] at hrel
        simp only [hrel, Bool.false_eq_true, if_false]
        exact ih (it + 1) 2 vim2 true y y (anderson_store pv vim 2 y).1 pv2 _
          hst.2.1 (Or.inr rfl)

/-- Scalar test map from the spec's scenario: `x ↦ x / 2 + 3`
(fixed point 6), as an external solve oracle for `ndof = 1`. -/
def halfPlusThree (v : List ℚ) : Option (List ℚ) :=
  some [v.getD 0 0 / 2 + 3]

/-- C1: the spec claims that when the previous iterate has near-zero norm
the convergence check takes a guarded branch and never compares a `NaN` or
`Infinity` against `tol`, converging when the absolute error is also tiny.
The code forms `rel_error = abs_error / last_iter_vec_norm` unconditionally
(its own FIXME comments at lines 322-323 flag this): with the zero vector
as previous iterate the compared value is `+Infinity` (or `NaN` when the
absolute error is also zero), the comparison is simply false, and with the
constant-zero map from the zero guess (absolute error exactly 0, below
every ε) the solve still ends in `maxIterationsExceeded` instead of
converging. -/
theorem relative_error_zero_norm_bug :
    relativeErrorCode [0] [3] 1 = RelError.inf ∧
    relLtTol (relativeErrorCode [0] [3] 1) (1 / 10000) = false ∧
    relativeErrorCode [0] [0] 1 = RelError.nan ∧
    relLtTol (relativeErrorCode [0] [0] 1) (1 / 10000) = false ∧
    (picardSolve (fun _ => some [3]) ⟨1 / 10000, 1, 3, 1, false, false⟩ 1
        none).exitReason = ExitReason.maxIterationsExceeded ∧
    (picardSolve (fun _ => some [0]) ⟨1 / 10000, 2, 3, 1, false, false⟩ 1
        none).exitReason = ExitReason.maxIterationsExceeded := by
  refine ⟨by with_unfolding_all decide, by with_unfolding_all decide,
    by with_unfolding_all decide, by with_unfolding_all decide,
    by with_unfolding_all decide, by with_unfolding_all decide⟩

/-- C2 counterexample: with Anderson acceleration on (depth 2) and a linear
solver that fails at once, the solve exits through the
`LinearMatrixSolverException` path with the scratch vector, the history
buffers and the coefficient array all allocated and none of them released,
refuting the claim that every exit path releases all per-solve
allocations. -/
theorem linear_solve_failure_leaks :
    picardSolve (fun _ => none) ⟨1 / 10000, 5, 2, 1, true, false⟩ 1 (some [1]) =
      { exitReason := ExitReason.linearSolveFailed
        sln_vector := [1]
        iterations := 1
        logs := [⟨FactorizationHint.fromScratch, true⟩]
        andersonAllocated := true
        freedLastIter := 0
        freedPrevVectors := 0
        freedCoeffs := 0 } := rfl

/-- C2 (amended): the per-solve allocations are released exactly once on
the converged and max-iterations exit paths, but the linear-solve-failure
path releases nothing: the previous-iterate scratch vector, the Anderson
history buffer and the coefficient array all leak there. -/
theorem release_on_exit_paths (F : List ℚ → Option (List ℚ))
    (cfg : PicardConfig) (ndof : ℕ) (g : Option (List ℚ))
    (hok : isOkay cfg = true) :
    ((picardSolve F cfg ndof g).exitReason = ExitReason.converged ∨
       (picardSolve F cfg ndof g).exitReason = ExitReason.maxIterationsExceeded →
      (picardSolve F cfg ndof g).freedLastIter = 1 ∧
      (picardSolve F cfg ndof g).freedPrevVectors =
        (if cfg.anderson_is_on then 1 else 0) ∧
      (picardSolve F cfg ndof g).freedCoeffs =
        (if cfg.anderson_is_on then 1 else 0)) ∧
    ((picardSolve F cfg ndof g).exitReason = ExitReason.linearSolveFailed →
      (picardSolve F cfg ndof g).freedLastIter = 0 ∧
      (picardSolve F cfg ndof g).freedPrevVectors = 0 ∧
      (picardSolve F cfg ndof g).freedCoeffs = 0) ∧
    (picardSolve F cfg ndof g).andersonAllocated = cfg.anderson_is_on := by
  have h := picardLoop_frees F cfg ndof (cfg.max_iter - 1) 1 1 false
    (initialVec ndof g) (initialVec ndof g)
    (if cfg.anderson_is_on then [initialVec ndof g] else []) []
  unfold picardSolve
  rw [if_pos hok]
  exact ⟨h.1, fun he => h.2.1 (Or.inl he), h.2.2⟩

/-- Witness for the amended C2 statement at a concrete converging run. -/
theorem release_on_exit_paths_witness :
    isOkay ⟨1 / 10000, 50, 3, 1, false, false⟩ = true ∧
    (((picardSolve halfPlusThree ⟨1 / 10000, 50, 3, 1, false, false⟩ 1
          none).exitReason = ExitReason.converged ∨
        (picardSolve halfPlusThree ⟨1 / 10000, 50, 3, 1, false, false⟩ 1
          none).exitReason = ExitReason.maxIterationsExceeded →
      (picardSolve halfPlusThree ⟨1 / 10000, 50, 3, 1, false, false⟩ 1
          none).freedLastIter = 1 ∧
      (picardSolve halfPlusThree ⟨1 / 10000, 50, 3, 1, false, false⟩ 1
          none).freedPrevVectors = (if false then 1 else 0) ∧
      (picardSolve halfPlusThree ⟨1 / 10000, 50, 3, 1, false, false⟩ 1
          none).freedCoeffs = (if false then 1 else 0)) ∧
    ((picardSolve halfPlusThree ⟨1 / 10000, 50, 3, 1, false, false⟩ 1
          none).exitReason = ExitReason.linearSolveFailed →
      (picardSolve halfPlusThree ⟨1 / 10000, 50, 3, 1, false, false⟩ 1
          none).freedLastIter = 0 ∧
      (picardSolve halfPlusThree ⟨1 / 10000, 50, 3, 1, false, false⟩ 1
          none).freedPrevVectors = 0 ∧
      (picardSolve halfPlusThree ⟨1 / 10000, 50, 3, 1, false, false⟩ 1
          none).freedCoeffs = 0) ∧
    (picardSolve halfPlusThree ⟨1 / 10000, 50, 3, 1, false, false⟩ 1
        none).andersonAllocated = false) :=
  ⟨rfl, release_on_exit_paths halfPlusThree ⟨1 / 10000, 50, 3, 1, false, false⟩
    1 none rfl⟩

/-- C3 counterexample: with Anderson acceleration enabled and history depth
1 (which is below the depth 2 the claim says is validated), the
configuration check `isOkay` passes, and the configuration error is thrown
mid-solve (during iteration 1, inside the Anderson coefficient
computation), refuting both that the failure surfaces at
configuration/validation time and that a configuration error is never
raised mid-solve. -/
theorem config_error_mid_solve_cex :
    isOkay ⟨1 / 10000, 5, 1, 1, true, false⟩ = true ∧
    (picardSolve halfPlusThree ⟨1 / 10000, 5, 1, 1, true, false⟩ 1
        (some [1])).exitReason = ExitReason.configurationError ∧
    (picardSolve halfPlusThree ⟨1 / 10000, 5, 1, 1, true, false⟩ 1
        (some [1])).iterations = 1 := by
  refine ⟨rfl, by with_unfolding_all decide, by with_unfolding_all decide⟩

/-- C3 (amended): a history depth below 1 does fail the validation check
before any iteration runs (`isOkay` rejects it and no iteration is
performed), but with Anderson enabled and depth exactly 1 the validation
passes and the configuration error is raised mid-solve, by the first
Anderson coefficient computation after a successful first linear solve. -/
theorem config_error_validation_vs_mid_solve :
    (∀ cfg : PicardConfig, cfg.num_last_vectors_used < 1 →
      isOkay cfg = false ∧
      ∀ (F : List ℚ → Option (List ℚ)) (ndof : ℕ) (g : Option (List ℚ)),
        (picardSolve F cfg ndof g).exitReason = ExitReason.configurationError ∧
        (picardSolve F cfg ndof g).iterations = 0) ∧
    (∀ (F : List ℚ → Option (List ℚ)) (t beta : ℚ) (mi ndof : ℕ) (cj : Bool)
        (g : Option (List ℚ)) (y : List ℚ),
      F (initialVec ndof g) = some y →
      (picardSolve F ⟨t, mi, 1, beta, true, cj⟩ ndof g).exitReason =
        ExitReason.configurationError ∧
      (picardSolve F ⟨t, mi, 1, beta, true, cj⟩ ndof g).iterations = 1) := by
  constructor
  · intro cfg hlt
    have hn : ¬ (1 ≤ cfg.num_last_vectors_used) := by omega
    have hfalse : isOkay cfg = false := by
      unfold isOkay
      exact decide_eq_false hn
    refine ⟨hfalse, fun F ndof g => ?_⟩
    unfold picardSolve
    rw [if_neg (by rw [hfalse]; exact Bool.false_ne_true)]
    exact ⟨rfl, rfl⟩
  · intro F t beta mi ndof cj g y hFy
    have hok : isOkay ⟨t, mi, 1, beta, true, cj⟩ = true := rfl
    unfold picardSolve
    rw [if_pos hok]
    simp only [if_true]
    rw [picardLoop, hFy]
    simp only []
    have hst : afterStore ⟨t, mi, 1, beta, true, cj⟩ [initialVec ndof g] 1 y =
        ([y], 1) := rfl
    rw [hst]
    have hmx : mixStep ⟨t, mi, 1, beta, true, cj⟩ [y] 1 ndof y =
        Except.error
          "Picard: Anderson acceleration makes sense only if at least two last iterations are used." :=
      rfl
    rw [hmx]
    exact ⟨rfl, rfl⟩

/-- Witness for the amended C3 statement at concrete inputs exercising both
branches. -/
theorem config_error_validation_vs_mid_solve_witness :
    ((⟨1 / 10000, 5, 0, 1, false, false⟩ : PicardConfig).num_last_vectors_used < 1 ∧
      isOkay ⟨1 / 10000, 5, 0, 1, false, false⟩ = false ∧
      (picardSolve halfPlusThree ⟨1 / 10000, 5, 0, 1, false, false⟩ 1
          none).exitReason = ExitReason.configurationError ∧
      (picardSolve halfPlusThree ⟨1 / 10000, 5, 0, 1, false, false⟩ 1
          none).iterations = 0) ∧
    (halfPlusThree (initialVec 1 (some [1])) = some [7 / 2] ∧
      (picardSolve halfPlusThree ⟨1 / 10000, 5, 1, 1, true, false⟩ 1
          (some [1])).exitReason = ExitReason.configurationError ∧
      (picardSolve halfPlusThree ⟨1 / 10000, 5, 1, 1, true, false⟩ 1
          (some [1])).iterations = 1) :=
  ⟨⟨by decide,
    by
      have h := (config_error_validation_vs_mid_solve.1
        ⟨1 / 10000, 5, 0, 1, false, false⟩ (by decide))
      exact ⟨h.1, (h.2 halfPlusThree 1 none).1, (h.2 halfPlusThree 1 none).2⟩⟩,
   by
      have h2 := config_error_validation_vs_mid_solve.2 halfPlusThree
        (1 / 10000) 1 5 1 false (some [1]) [7 / 2]
        (by with_unfolding_all decide)
      exact ⟨by with_unfolding_all decide, h2.1, h2.2⟩⟩

/-- C4: every solve that ends with `maxIterationsExceeded` has run the
release block (scratch vector freed once, Anderson buffers freed once when
allocated) before the failure surfaces, and the last computed iterate stays
in `sln_vector`, retrievable by the caller; concretely, with `max_iter = 1`
and `tol = 1e-9` against the non-converging scalar map from the zero guess,
exactly one iteration runs, the failure is `maxIterationsExceeded`, and the
retrievable iterate is `3.0`. -/
theorem max_iterations_exit (F : List ℚ → Option (List ℚ))
    (cfg : PicardConfig) (ndof : ℕ) (g : Option (List ℚ)) :
    ((picardSolve F cfg ndof g).exitReason = ExitReason.maxIterationsExceeded →
      (picardSolve F cfg ndof g).freedLastIter = 1 ∧
      (picardSolve F cfg ndof g).freedPrevVectors =
        (if cfg.anderson_is_on then 1 else 0) ∧
      (picardSolve F cfg ndof g).freedCoeffs =
        (if cfg.anderson_is_on then 1 else 0)) ∧
    picardSolve halfPlusThree ⟨1 / 1000000000, 1, 3, 1, false, false⟩ 1
        (some [0]) =
      { exitReason := ExitReason.maxIterationsExceeded
        sln_vector := [3]
        iterations := 1
        logs := [⟨FactorizationHint.fromScratch, true⟩]
        andersonAllocated := false
        freedLastIter := 1
        freedPrevVectors := 0
        freedCoeffs := 0 } := by
  constructor
  · intro he
    by_cases hok : isOkay cfg = true
    · have h := picardLoop_frees F cfg ndof (cfg.max_iter - 1) 1 1 false
        (initialVec ndof g) (initialVec ndof g)
        (if cfg.anderson_is_on then [initialVec ndof g] else []) []
      unfold picardSolve at he ⊢
      rw [if_pos hok] at he ⊢
      exact h.1 (Or.inr he)
    · unfold picardSolve at he
      rw [if_neg hok] at he
      exact ExitReason.noConfusion he
  · with_unfolding_all decide

/-- Witness for C4 instantiating the hypothesis of its first part at the
concrete max-iterations run of its second part. -/
theorem max_iterations_exit_witness :
    (picardSolve halfPlusThree ⟨1 / 1000000000, 1, 3, 1, false, false⟩ 1
        (some [0])).exitReason = ExitReason.maxIterationsExceeded ∧
    ((picardSolve halfPlusThree ⟨1 / 1000000000, 1, 3, 1, false, false⟩ 1
        (some [0])).freedLastIter = 1 ∧
      (picardSolve halfPlusThree ⟨1 / 1000000000, 1, 3, 1, false, false⟩ 1
        (some [0])).freedPrevVectors = (if false then 1 else 0) ∧
      (picardSolve halfPlusThree ⟨1 / 1000000000, 1, 3, 1, false, false⟩ 1
        (some [0])).freedCoeffs = (if false then 1 else 0)) :=
  ⟨by with_unfolding_all decide,
   (max_iterations_exit halfPlusThree ⟨1 / 1000000000, 1, 3, 1, false, false⟩ 1
      (some [0])).1 (by with_unfolding_all decide)⟩

/-- C5: for every valid history depth `M ≥ 1` and every sequence of pushes,
the history buffer never holds more than `M` vectors; a push into a full
buffer drops exactly the oldest entry and appends the new vector,
preserving the order of the rest; and once more than `M` vectors have been
pushed, the stored vectors are exactly the last `M` pushed, oldest
first. -/
theorem history_buffer_bounded_fifo (M : ℕ) (hM : 1 ≤ M)
    (ps : List (List ℚ)) :
    (∀ k : ℕ, ((historyAfter M (ps.take k)).1).length ≤ M) ∧
    (∀ (h : List (List ℚ)) (v : List ℚ), h.length = M →
      (anderson_store h h.length M v).1 = h.tail ++ [v]) ∧
    (M + 1 ≤ ps.length → (historyAfter M ps).1 = ps.drop (ps.length - M)) := by
  refine ⟨?_, ?_, ?_⟩
  · intro k
    rw [historyAfter_eq M hM]
    simp only [List.length_drop]
    omega
  · intro h v hlen
    unfold anderson_store
    rw [if_neg (by omega)]
  · intro _
    rw [historyAfter_eq M hM]

/-- Witness for C5 at depth 2 with three pushed vectors. -/
theorem history_buffer_bounded_fifo_witness :
    (1 : ℕ) ≤ 2 ∧
    ((∀ k : ℕ,
        ((historyAfter 2 (([[1], [2], [3]] : List (List ℚ)).take k)).1).length ≤ 2) ∧
      (∀ (h : List (List ℚ)) (v : List ℚ), h.length = 2 →
        (anderson_store h h.length 2 v).1 = h.tail ++ [v]) ∧
      (2 + 1 ≤ ([[1], [2], [3]] : List (List ℚ)).length →
        (historyAfter 2 ([[1], [2], [3]] : List (List ℚ))).1 =
          ([[1], [2], [3]] : List (List ℚ)).drop
            (([[1], [2], [3]] : List (List ℚ)).length - 2))) :=
  ⟨by decide, history_buffer_bounded_fifo 2 (by decide) [[1], [2], [3]]⟩

/-- C6: for every solve that passes validation, the factorization log is
exactly one `FromScratch` entry with a full (matrix and residual) assembly
for the first iteration, followed by identical reuse entries for all later
iterations: complete factorization reuse with residual-only reassembly when
the Jacobian is declared constant, ordering-and-scaling reuse with full
reassembly otherwise. -/
theorem factorization_hint_policy (F : List ℚ → Option (List ℚ))
    (cfg : PicardConfig) (ndof : ℕ) (g : Option (List ℚ))
    (hok : isOkay cfg = true) :
    ∃ k : ℕ, (picardSolve F cfg ndof g).logs =
      ⟨FactorizationHint.fromScratch, true⟩ ::
        List.replicate k
          ⟨if cfg.constant_jacobian then FactorizationHint.reuseFull
            else FactorizationHint.reuseOrderingAndScaling,
           !cfg.constant_jacobian⟩ := by
  unfold picardSolve
  rw [if_pos hok]
  simp only []
  obtain ⟨k, h⟩ := picardLoop_logs_first F cfg ndof (cfg.max_iter - 1) 1 1
    (initialVec ndof g) (initialVec ndof g)
    (if cfg.anderson_is_on then [initialVec ndof g] else []) []
  refine ⟨k, ?_⟩
  rw [h]
  simp [iterLog]

/-- Witness for C6 at a concrete three-iteration run with a non-constant
Jacobian. -/
theorem factorization_hint_policy_witness :
    isOkay ⟨1 / 10000, 3, 3, 1, false, false⟩ = true ∧
    ∃ k : ℕ,
      (picardSolve halfPlusThree ⟨1 / 10000, 3, 3, 1, false, false⟩ 1
          none).logs =
        ⟨FactorizationHint.fromScratch, true⟩ ::
          List.replicate k ⟨FactorizationHint.reuseOrderingAndScaling, true⟩ :=
  ⟨rfl, factorization_hint_policy halfPlusThree ⟨1 / 10000, 3, 3, 1, false, false⟩
    1 none rfl⟩

/-- C7: for every history depth `M ≥ 2` the coefficient computation
succeeds with exactly `M - 1` coefficients whose sum is exactly 1 (the last
coefficient is one minus the sum of the others by construction), and for
`M = 2` the single coefficient is exactly `1.0`, produced without building
or solving any linear system. -/
theorem anderson_coeffs_sum_one (pv : List (List ℚ)) (M ndof : ℕ)
    (h2 : 2 ≤ M) :
    ∃ cs : List ℚ, calculate_anderson_coeffs pv M ndof = Except.ok cs ∧
      cs.sum = 1 ∧ cs.length = M - 1 ∧ (M = 2 → cs = [1]) := by
  by_cases hM : M = 2
  · subst hM
    exact ⟨[1], rfl, by simp, rfl, fun _ => rfl⟩
  · have hng : ¬ M ≤ 1 := by omega
    unfold calculate_anderson_coeffs
    rw [if_neg hng, if_neg hM]
    refine ⟨_, rfl, ?_, ?_, fun h => absurd h hM⟩
    · simp
    · rw [List.length_append, luSolve_length]
      simp only [List.length_map, List.length_range, List.length_singleton]
      omega

/-- Witness for C7 at `M = 3` with one degree of freedom. -/
theorem anderson_coeffs_sum_one_witness :
    (2 : ℕ) ≤ 3 ∧
    ∃ cs : List ℚ,
      calculate_anderson_coeffs [[0], [1], [3]] 3 1 = Except.ok cs ∧
      cs.sum = 1 ∧ cs.length = 3 - 1 ∧ (3 = 2 → cs = [1]) :=
  ⟨by decide, anderson_coeffs_sum_one [[0], [1], [3]] 3 1 (by decide)⟩

/-- C8: for every depth `M ≥ 3` with `n = M - 2`, the accumulated
right-hand side and matrix entries of the normal-equation system equal the
spec's closed-form sums over the residual differences
`r_i = v_{i+1} − v_i`, and the coefficient computation returns exactly the
solution `x` of that system produced by the LU solve with partial pivoting
followed by the closing coefficient `1 − Σ x_i`. -/
theorem anderson_normal_equations (pv : List (List ℚ)) (M ndof : ℕ)
    (h3 : 3 ≤ M) :
    (∀ i, anderson_rhs_entry pv (M - 2) ndof i = rhsSpec pv (M - 2) ndof i) ∧
    (∀ i j, anderson_mat_entry pv (M - 2) ndof i j =
      matSpec pv (M - 2) ndof i j) ∧
    calculate_anderson_coeffs pv M ndof =
      Except.ok
        (luSolve
            ((List.range (M - 2)).map (fun i =>
              (List.range (M - 2)).map (fun j => matSpec pv (M - 2) ndof i j)))
            ((List.range (M - 2)).map (fun i => rhsSpec pv (M - 2) ndof i)) ++
          [1 -
            (luSolve
              ((List.range (M - 2)).map (fun i =>
                (List.range (M - 2)).map (fun j => matSpec pv (M - 2) ndof i j)))
              ((List.range (M - 2)).map
                (fun i => rhsSpec pv (M - 2) ndof i))).sum]) := by
  refine ⟨fun i => anderson_rhs_entry_eq pv (M - 2) ndof i,
    fun i j => anderson_mat_entry_eq pv (M - 2) ndof i j, ?_⟩
  unfold calculate_anderson_coeffs
  rw [if_neg (by omega), if_neg (by omega)]
  simp only [anderson_rhs_entry_eq, anderson_mat_entry_eq]

/-- Witness for C8 at `M = 3` with one degree of freedom. -/
theorem anderson_normal_equations_witness :
    (3 : ℕ) ≤ 3 ∧
    ((∀ i, anderson_rhs_entry [[0], [1], [3]] (3 - 2) 1 i =
        rhsSpec [[0], [1], [3]] (3 - 2) 1 i) ∧
      (∀ i j, anderson_mat_entry [[0], [1], [3]] (3 - 2) 1 i j =
        matSpec [[0], [1], [3]] (3 - 2) 1 i j) ∧
      calculate_anderson_coeffs [[0], [1], [3]] 3 1 =
        Except.ok
          (luSolve
              ((List.range (3 - 2)).map (fun i =>
                (List.range (3 - 2)).map (fun j =>
                  matSpec [[0], [1], [3]] (3 - 2) 1 i j)))
              ((List.range (3 - 2)).map
                (fun i => rhsSpec [[0], [1], [3]] (3 - 2) 1 i)) ++
            [1 -
              (luSolve
                ((List.range (3 - 2)).map (fun i =>
                  (List.range (3 - 2)).map (fun j =>
                    matSpec [[0], [1], [3]] (3 - 2) 1 i j)))
                ((List.range (3 - 2)).map
                  (fun i => rhsSpec [[0], [1], [3]] (3 - 2) 1 i))).sum])) :=
  ⟨by decide, anderson_normal_equations [[0], [1], [3]] 3 1 (by decide)⟩

/-- C9: each component of the mixed vector follows the damped extrapolation
formula `Σ_j c_j·v_j[i] − (1 − beta)·c_j·(v_j[i] − v_{j-1}[i])` over
`j = 1 … M-1`, and with `beta = 1` the relaxation term vanishes so the
mixed vector is the plain linear combination `Σ_j c_j · v_j`. -/
theorem anderson_mixed_vector_formula (pv : List (List ℚ)) (cs : List ℚ)
    (M ndof : ℕ) (beta : ℚ) :
    (∀ i, i < ndof →
      (anderson_mix pv cs M ndof beta).getD i 0 =
        ∑ j ∈ Finset.Ico 1 M,
          (cs.getD (j - 1) 0 * (pv.getD j []).getD i 0
            - (1 - beta) * cs.getD (j - 1) 0 *
              ((pv.getD j []).getD i 0 - (pv.getD (j - 1) []).getD i 0))) ∧
    anderson_mix pv cs M ndof 1 =
      (List.range ndof).map (fun i =>
        ∑ j ∈ Finset.Ico 1 M, cs.getD (j - 1) 0 * (pv.getD j []).getD i 0) := by
  constructor
  · intro i hi
    exact anderson_mix_getD pv cs M ndof beta i hi
  · unfold anderson_mix
    apply List.map_congr_left
    intro i _
    rw [foldl_add_range']
    cases M with
    | zero => simp
    | succ m =>
      rw [show 1 + (Nat.succ m - 1) = Nat.succ m by omega]
      simp [sub_self, zero_mul, mul_zero, sub_zero, zero_add]

/-- Witness for C9 at depth 2 with one degree of freedom and `beta = 1/2`. -/
theorem anderson_mixed_vector_formula_witness :
    (0 : ℕ) < 1 ∧
    (anderson_mix [[1], [2]] [1] 2 1 (1 / 2)).getD 0 0 =
      ∑ j ∈ Finset.Ico 1 2,
        (([1] : List ℚ).getD (j - 1) 0 *
            (([[1], [2]] : List (List ℚ)).getD j []).getD 0 0
          - (1 - 1 / 2) * ([1] : List ℚ).getD (j - 1) 0 *
            ((([[1], [2]] : List (List ℚ)).getD j []).getD 0 0 -
             (([[1], [2]] : List (List ℚ)).getD (j - 1) []).getD 0 0)) :=
  ⟨by decide,
   (anderson_mixed_vector_formula [[1], [2]] [1] 2 1 (1 / 2)).1 0 (by decide)⟩

/-- C10: with Anderson acceleration enabled, depth `M = 2` and `beta = 1`,
the mixing step is the identity: the single coefficient is `1.0`, the mixed
vector equals the newest candidate unchanged, and a whole solve produces
exactly the same exit reason, final vector, iteration count and
factorization log as the plain Picard solve with acceleration off (for any
external solver returning vectors of the problem size). -/
theorem anderson_depth_two_plain_picard (F : List ℚ → Option (List ℚ))
    (t : ℚ) (mi : ℕ) (cj : Bool) (ndof : ℕ) (g : Option (List ℚ))
    (hF : ∀ x y, F x = some y → y.length = ndof) :
    (∀ pv : List (List ℚ), calculate_anderson_coeffs pv 2 ndof =
      Except.ok [1]) ∧
    (∀ pv : List (List ℚ), (pv.getD 1 []).length = ndof →
      anderson_mix pv [1] 2 ndof 1 = pv.getD 1 []) ∧
    resultsAgree
      (picardSolve F ⟨t, mi, 2, 1, true, cj⟩ ndof g)
      (picardSolve F ⟨t, mi, 2, 1, false, cj⟩ ndof g) := by
  refine ⟨fun pv => calculate_anderson_coeffs_two pv ndof,
    fun pv h => anderson_mix_two pv ndof h, ?_⟩
  unfold picardSolve
  rw [if_pos (show isOkay ⟨t, mi, 2, 1, true, cj⟩ = true from rfl),
    if_pos (show isOkay ⟨t, mi, 2, 1, false, cj⟩ = true from rfl)]
  simp only [if_true]
  exact picardLoop_M2 F t mi cj ndof hF (mi - 1) 1 1 1 false
    (initialVec ndof g) (initialVec ndof g) [initialVec ndof g] [] []
    (by simp) (Or.inl rfl)

/-- Witness for C10 at the spec's scalar map with depth 2 and `beta = 1`. -/
theorem anderson_depth_two_plain_picard_witness :
    (∀ pv : List (List ℚ), calculate_anderson_coeffs pv 2 1 =
      Except.ok [1]) ∧
    (∀ pv : List (List ℚ), (pv.getD 1 []).length = 1 →
      anderson_mix pv [1] 2 1 1 = pv.getD 1 []) ∧
    resultsAgree
      (picardSolve halfPlusThree ⟨1 / 1000, 50, 2, 1, true, false⟩ 1 (some [0]))
      (picardSolve halfPlusThree ⟨1 / 1000, 50, 2, 1, false, false⟩ 1 (some [0])) :=
  anderson_depth_two_plain_picard halfPlusThree (1 / 1000) 50 false 1 (some [0])
    (fun x y h => by injection h with h2; rw [← h2]; rfl)
